import Mathlib

/-!
Verification of the LaTeX batch-rewriting utilities of this repository.

The development shallowly embeds the three scripts that the claims concern:

* scripts/convert_verses.py   (namespace ConvertVerses)
* scripts/convert_footnotes.py (namespace ConvertFootnotes)
* scripts/add_labels_to_secs.py (namespace AddLabels)

Strings are modelled as List Char; Python string indices become Nat
offsets.  While-loops that advance an index by a computed amount are
embedded as fuel-indexed structural recursions; the fuel passed at every
call site (length of the scanned text plus one) provably dominates the
number of iterations, because every iteration advances the index by at
least one position, so the fuel-exhaustion branch is unreachable and is
given the same result as the normal end-of-input branch.  Python
exceptions (ValueError) are modelled with Except String.
-/

/-- Coerce a literal to the character-list model of Python strings. -/
def cs (s : String) : List Char := s.toList

/-- The whitespace test used by Python str.isspace / regex \s for the
ASCII range (space, tab, newline, carriage return, vertical tab, form
feed). -/
def pyIsSpace (c : Char) : Bool :=
  c = ' ' || c = '\t' || c = '\n' || c = '\r' || c = '\x0b' || c = '\x0c'

/-- Indexing s[i] for an index known to be in range (default is
irrelevant and never exposed by the theorems). -/
def charD (s : List Char) (i : Nat) : Char := s.getD i ' '

/-- Python slice s[a:b]. -/
def sliceL (s : List Char) (a b : Nat) : List Char := (s.drop a).take (b - a)

deriving instance DecidableEq for Except

namespace ConvertVerses

/-- The depth-counting loop shared by parse_braced_arg: scanning the text
that follows the opening brace with the depth already at d, it returns
the number of characters consumed up to and including the closing brace
that brings the depth to zero, or none if the text ends first. -/
def braceScan : List Char → Int → Option Nat
  | [], _ => none
  | c :: t, d =>
    if c = '\x7b' then (braceScan t (d + 1)).map (· + 1)
    else if c = '\x7d' then
      if d - 1 = 0 then some 1
      else (braceScan t (d - 1)).map (· + 1)
    else (braceScan t d).map (· + 1)

/-- parse_braced_arg from convert_verses.py: parse a LaTeX braced
argument starting at s[i], supporting nested braces; returns the content
between the outer braces and the index just after the closing brace. -/
def parse_braced_arg (s : List Char) (i : Nat) : Except String (List Char × Nat) :=
  match s.drop i with
  | c :: t =>
    if c = '\x7b' then
      match braceScan t 1 with
      | some m => .ok (t.take (m - 1), i + 1 + m)
      | none => .error "Unclosed arg while parsing Verse"
    else .error "Expected open brace"
  | [] => .error "Expected open brace"

/-- Helper for Python str.find(c, i): index of the first occurrence of c
at or after position i. -/
def findCharAux : List Char → Char → Nat → Option Nat
  | [], _, _ => none
  | c :: t, x, i => if c = x then some i else findCharAux t x (i + 1)

def findCharFrom (s : List Char) (x : Char) (i : Nat) : Option Nat :=
  findCharAux (s.drop i) x i

/-- parse_optional_bracket from convert_verses.py: if s[i] is an opening
square bracket, parse up to the first closing bracket (no nesting). -/
def parse_optional_bracket (s : List Char) (i : Nat) :
    Except String (Option (List Char) × Nat) :=
  if i < s.length ∧ charD s i = '[' then
    match findCharFrom s ']' (i + 1) with
    | some j => .ok (some ((s.drop (i + 1)).take (j - (i + 1))), j + 1)
    | none => .error "Unclosed ref in Verse"
  else .ok (none, i)

/-- Loop of skip_ws over the suffix of the text that starts at the
current index. -/
def skipWsAux : List Char → Nat → Nat
  | [], i => i
  | c :: t, i => if pyIsSpace c then skipWsAux t (i + 1) else i

/-- skip_ws from convert_verses.py: advance the index over whitespace
characters only. -/
def skip_ws (s : List Char) (i : Nat) : Nat := skipWsAux (s.drop i) i

/-- Matcher for one occurrence of the HSPACE_CMD_RE regex (a backslash,
"hspace", an optional star, then a braced group with no inner closing
brace): on success returns the remainder of the text after the
occurrence. -/
def matchHspace (t : List Char) : Option (List Char) :=
  if (cs "\\hspace").isPrefixOf t then
    let t1 := t.drop 7
    let t2 := match t1 with
      | c :: r => if c = '*' then r else t1
      | [] => t1
    match t2 with
    | c :: r =>
      if c = '\x7b' then
        let r2 := r.dropWhile (· ≠ '\x7d')
        match r2 with
        | _ :: r3 => some r3
        | [] => none
      else none
    | [] => none
  else none

/-- Matcher for LEADING_HSPACE_RE (anchored at the start of the string:
optional whitespace, an hspace command, optional trailing whitespace):
on success returns the remainder after the match. -/
def matchLeadingHspace (en : List Char) : Option (List Char) :=
  match matchHspace (en.dropWhile pyIsSpace) with
  | some r => some (r.dropWhile pyIsSpace)
  | none => none

/-- had_leading_hspace from convert_verses.py. -/
def had_leading_hspace (en : List Char) : Bool :=
  (matchLeadingHspace en).isSome

/-- LEADING_HSPACE_RE.sub applied with the empty replacement: the regex
is anchored at the start of the string, so it removes at most one
leading occurrence. -/
def leadingHspaceSub (en : List Char) : List Char :=
  match matchLeadingHspace en with
  | some r => r
  | none => en

/-- Fuel-indexed loop of strip_all_hspace: replace every occurrence of
the HSPACE_CMD_RE regex by nothing, scanning left to right. -/
def stripHspaceAux : Nat → List Char → List Char
  | 0, t => t
  | fuel + 1, t =>
    match t with
    | [] => []
    | c :: t' =>
      match matchHspace (c :: t') with
      | some r => stripHspaceAux fuel r
      | none => c :: stripHspaceAux fuel t'

/-- strip_all_hspace from convert_verses.py. -/
def strip_all_hspace (s : List Char) : List Char := stripHspaceAux (s.length + 1) s

/-- Loop replacing every occurrence of the regex of a LaTeX line break
surrounded by optional whitespace (backslash backslash) by one space, as
in normalize_english. -/
def latexBreakAux : Nat → List Char → List Char
  | 0, t => t
  | fuel + 1, t =>
    match t with
    | [] => []
    | c :: t' =>
      let t1 := (c :: t').dropWhile pyIsSpace
      match t1 with
      | a :: b :: r =>
        if a = '\\' ∧ b = '\\' then ' ' :: latexBreakAux fuel (r.dropWhile pyIsSpace)
        else c :: latexBreakAux fuel t'
      | _ => c :: latexBreakAux fuel t'

/-- Loop replacing every run of whitespace by a single space (the
one-or-more whitespace regex of normalize_english); the flag records
whether the previous character belonged to a run already replaced. -/
def collapseWsAux : Bool → List Char → List Char
  | _, [] => []
  | inRun, c :: t =>
    if pyIsSpace c then
      if inRun then collapseWsAux true t else ' ' :: collapseWsAux true t
    else c :: collapseWsAux false t

/-- Python str.strip: trim whitespace at both ends. -/
def stripWs (l : List Char) : List Char :=
  ((l.dropWhile pyIsSpace).reverse.dropWhile pyIsSpace).reverse

/-- Tail of the SPEAKER_LINE_RE match, applied to the text that follows
the candidate speaker group: one or more whitespace characters, "said"
or "says" (case-insensitive), optional whitespace, a colon, one or more
whitespace characters, then a nonempty rest reaching the end. Returns
the verb as matched and the rest group. -/
def speakerTail (t : List Char) : Option (List Char × List Char) :=
  match t with
  | c :: _ =>
    if pyIsSpace c then
      let t1 := t.dropWhile pyIsSpace
      let w := (t1.take 4).map Char.toLower
      if w = cs "said" || w = cs "says" then
        let verb := t1.take 4
        let t2 := (t1.drop 4).dropWhile pyIsSpace
        match t2 with
        | d :: t4 =>
          if d = ':' then
            match t4 with
            | e :: _ =>
              if pyIsSpace e then
                let t5 := t4.dropWhile pyIsSpace
                if t5 ≠ [] then some (verb, t5)
                else if 2 ≤ t4.length then some (verb, t4.drop (t4.length - 1))
                else none
              else none
            | [] => none
          else none
        | [] => none
      else none
    else none
  | [] => none

/-- Backtracking loop of SPEAKER_LINE_RE.match: the speaker group is
non-greedy, so the shortest nonempty speaker for which the tail matches
wins; whoRev accumulates the candidate speaker in reverse. -/
def speakerAux : List Char → List Char → Option (List Char × List Char × List Char)
  | whoRev, t =>
    match
      (match whoRev with
       | [] => none
       | _ => (speakerTail t).map fun vr => (whoRev.reverse, vr.1, vr.2)) with
    | some r => some r
    | none =>
      match t with
      | [] => none
      | c :: t' => speakerAux (c :: whoRev) t'

/-- SPEAKER_LINE_RE.match from convert_verses.py, returning the three
groups (speaker, verb, rest) when the whole string matches. -/
def speakerMatch (en : List Char) : Option (List Char × List Char × List Char) :=
  speakerAux [] en

/-- normalize_english from convert_verses.py. -/
def normalize_english (en : List Char) : List Char :=
  let indent := if had_leading_hspace en then cs "\\quad " else []
  let en1 := strip_all_hspace (leadingHspaceSub en)
  let en2 := latexBreakAux (en1.length + 1) en1
  let en3 := stripWs (collapseWsAux false en2)
  let en4 :=
    match speakerMatch en3 with
    | some (who, verb, rest) =>
      stripWs who ++ ' ' :: (verb ++ cs ":\\linebreak " ++ stripWs rest)
    | none => en3
  indent ++ en4

/-- Optional fractional part of the trailing-reference regex: a dot
followed by one or more digits; when the dot is present without a digit
the optional group is skipped, which makes the surrounding match fail at
the dot anyway, so the text is returned unchanged in that case. -/
def refFrac (t : List Char) : List Char :=
  match t with
  | c :: u =>
    if c = '.' ∧ u.takeWhile Char.isDigit ≠ [] then u.dropWhile Char.isDigit
    else t
  | [] => t

/-- Optional range part of the trailing-reference regex: an en dash or
hyphen, one or more digits, and an optional fractional part. -/
def refRange (t : List Char) : List Char :=
  match t with
  | c :: u =>
    if (c = '–' ∨ c = '-') ∧ u.takeWhile Char.isDigit ≠ [] then
      refFrac (u.dropWhile Char.isDigit)
    else t
  | [] => t

/-- One attempt of the trailing-reference regex of
append_ref_to_translation at the head of t: an opening parenthesis,
optional whitespace, digits with optional fraction and optional range,
optional whitespace, a closing parenthesis, then only whitespace up to
the end of the string. -/
def refTailMatch (t : List Char) : Bool :=
  match t with
  | c :: t1 =>
    if c = '(' then
      let t2 := t1.dropWhile pyIsSpace
      if t2.takeWhile Char.isDigit ≠ [] then
        let t3 := refRange (refFrac (t2.dropWhile Char.isDigit))
        match t3.dropWhile pyIsSpace with
        | d :: t4 => d = ')' && t4.all pyIsSpace
        | [] => false
      else false
    else false
  | [] => false

/-- Existence of a match of the trailing-reference regex (re.search with
an end-of-string anchor only needs existence at some start position). -/
def endsWithRef : List Char → Bool
  | [] => false
  | c :: t => refTailMatch (c :: t) || endsWithRef t

/-- append_ref_to_translation from convert_verses.py. -/
def append_ref_to_translation (en_body ref : List Char) : List Char :=
  let r := stripWs ref
  if r = [] then en_body
  else if endsWithRef en_body then en_body
  else en_body ++ ' ' :: '(' :: (r ++ [')'])

/-- Splitter on occurrences of a double backslash, used by
split_latex_lines; the whitespace around the separator that the original
regex also consumes is removed afterwards by stripping every part. -/
def splitDB : List Char → List (List Char)
  | [] => [[]]
  | [c] => [[c]]
  | c :: d :: t =>
    if c = '\\' ∧ d = '\\' then [] :: splitDB t
    else
      match splitDB (d :: t) with
      | [] => [[c]]
      | p :: ps => (c :: p) :: ps

/-- split_latex_lines from convert_verses.py: split on LaTeX line breaks
with surrounding whitespace, strip every part, drop empty parts. -/
def split_latex_lines (sa : List Char) : List (List Char) :=
  ((splitDB (stripWs sa)).map stripWs).filter (· ≠ [])

/-- sa_to_verse_body from convert_verses.py. -/
def sa_to_verse_body (sa : List Char) : List Char :=
  let lines := split_latex_lines (strip_all_hspace sa)
  List.intercalate (cs " \\\\\n")
    (lines.map fun line => cs "\\textit" ++ '\x7b' :: (line ++ ['\x7d']))

/-- The two-or-more whitespace regex substitution used at the end of
extract_footnotes_brace_aware: a run of at least two whitespace
characters becomes a single space, a single whitespace character is kept
as it is. -/
def collapseWs2Aux : Nat → List Char → List Char
  | 0, t => t
  | fuel + 1, t =>
    match t with
    | [] => []
    | c :: t' =>
      if pyIsSpace c then
        match t' with
        | d :: _ =>
          if pyIsSpace d then ' ' :: collapseWs2Aux fuel (t'.dropWhile pyIsSpace)
          else c :: collapseWs2Aux fuel t'
        | [] => [c]
      else c :: collapseWs2Aux fuel t'

/-- Scanning loop of extract_footnotes_brace_aware over the remaining
text, collecting the stripped footnote bodies. -/
def extractFnAux : Nat → List Char → Except String (List Char × List (List Char))
  | 0, t => .ok (t, [])
  | fuel + 1, t =>
    match t with
    | [] => .ok ([], [])
    | c :: t' =>
      if (cs "\\footnote").isPrefixOf (c :: t') then
        let t2 := ((c :: t').drop 9).dropWhile pyIsSpace
        match t2 with
        | d :: _ =>
          if d = '\x7b' then
            match parse_braced_arg t2 0 with
            | .error e => .error e
            | .ok (note, k2) =>
              match extractFnAux fuel (t2.drop k2) with
              | .error e => .error e
              | .ok (out, notes) => .ok (out, stripWs note :: notes)
          else
            match extractFnAux fuel t' with
            | .error e => .error e
            | .ok (out, notes) => .ok (c :: out, notes)
        | [] =>
          match extractFnAux fuel t' with
          | .error e => .error e
          | .ok (out, notes) => .ok (c :: out, notes)
      else
        match extractFnAux fuel t' with
        | .error e => .error e
        | .ok (out, notes) => .ok (c :: out, notes)

/-- extract_footnotes_brace_aware from convert_verses.py: removes every
footnote group from the English text (supporting nested braces) and
returns the remaining text with whitespace runs collapsed, together with
the list of extracted notes. -/
def extract_footnotes_brace_aware (en : List Char) :
    Except String (List Char × List (List Char)) :=
  match extractFnAux (en.length + 1) en with
  | .error e => .error e
  | .ok (out, notes) => .ok (collapseWs2Aux (out.length + 1) out, notes)

/-- format_verse_block from convert_verses.py: footnotes are kept inline
(the extractor above is deliberately not called). -/
def format_verse_block (ref : Option (List Char)) (sa en : List Char) : List Char :=
  let r := stripWs (ref.getD [])
  let sa_body := sa_to_verse_body sa
  let en_body := append_ref_to_translation (normalize_english en) r
  cs "\n\\par\n\\begin\x7bverse\x7d\n" ++ sa_body ++ cs "\n\n\\noindent " ++
    en_body ++ cs "\n\\end\x7bverse\x7d\n\\par\n"

/-- The macro name scanned for by convert_content. -/
def verseName : List Char := cs "\\Verse"

/-- Python str.startswith(pat, i). -/
def startsWithAt (s pat : List Char) (i : Nat) : Bool := pat.isPrefixOf (s.drop i)

/-- The document scan loop of convert_content.  The result carries the
rewritten text, the conversion count and the number of loop iterations
performed.  Every iteration advances the index by at least one, so the
fuel used by convert_content is never exhausted. -/
def convertLoop : Nat → List Char → Nat → Except String (List Char × Nat × Nat)
  | 0, tex, i => .ok (tex.drop i, 0, 0)
  | fuel + 1, tex, i =>
    if i < tex.length then
      if startsWithAt tex verseName i then
        let j0 := skip_ws tex (i + 6)
        match
          (if j0 < tex.length ∧ charD tex j0 = '[' then
            match parse_optional_bracket tex j0 with
            | .ok (r, j1) => .ok (r, skip_ws tex j1)
            | .error e => .error e
          else .ok (none, j0) : Except String (Option (List Char) × Nat)) with
        | .error e => .error e
        | .ok (ref, j2) =>
          if j2 < tex.length ∧ charD tex j2 = '\x7b' then
            match parse_braced_arg tex j2 with
            | .error e => .error e
            | .ok (sa, j3) =>
              let j4 := skip_ws tex j3
              if j4 < tex.length ∧ charD tex j4 = '\x7b' then
                match parse_braced_arg tex j4 with
                | .error e => .error e
                | .ok (en, j5) =>
                  match convertLoop fuel tex j5 with
                  | .error e => .error e
                  | .ok (o, n, k) => .ok (format_verse_block ref sa en ++ o, n + 1, k + 1)
              else
                match convertLoop fuel tex (i + 1) with
                | .error e => .error e
                | .ok (o, n, k) => .ok (charD tex i :: o, n, k + 1)
          else
            match convertLoop fuel tex (i + 1) with
            | .error e => .error e
            | .ok (o, n, k) => .ok (charD tex i :: o, n, k + 1)
      else
        match convertLoop fuel tex (i + 1) with
        | .error e => .error e
        | .ok (o, n, k) => .ok (charD tex i :: o, n, k + 1)
    else .ok ([], 0, 0)

/-- convert_content from convert_verses.py: scan the document and
convert every well-formed Verse invocation, copying all other text
unchanged; malformed invocations where the expected opening brace is
absent fall back to a literal copy of one character. -/
def convert_content (tex : List Char) : Except String (List Char × Nat) :=
  match convertLoop (tex.length + 1) tex 0 with
  | .error e => .error e
  | .ok (o, n, _) => .ok (o, n)

/-- A character list whose braces are balanced and properly nested:
closing braces never outnumber opening braces in any prefix, and the two
totals agree. -/
def Balanced (b : List Char) : Prop :=
  b.count '\x7d' = b.count '\x7b' ∧
  ∀ k, k ≤ b.length → (b.take k).count '\x7d' ≤ (b.take k).count '\x7b'

instance (b : List Char) : Decidable (Balanced b) := by
  unfold Balanced
  infer_instance

end ConvertVerses

/-- Scan for the first newline: returns the number of characters before
it and the remainder starting at the newline (or empty). -/
def splitAtNewline : List Char → Nat × List Char
  | [] => (0, [])
  | c :: t =>
    if c = '\n' then (0, c :: t)
    else
      match splitAtNewline t with
      | (k, r) => (k + 1, r)

namespace ConvertFootnotes

/-- Loop of skip_ws_and_comments from convert_footnotes.py over the
suffix starting at the current index: whitespace is skipped one
character at a time; a percent sign skips to the next newline, which the
whitespace branch then consumes. -/
def skipWcAux : Nat → List Char → Nat → Nat
  | 0, _, i => i
  | fuel + 1, t, i =>
    match t with
    | [] => i
    | c :: t' =>
      if pyIsSpace c then skipWcAux fuel t' (i + 1)
      else if c = '%' then
        match splitAtNewline (c :: t') with
        | (k, r) => skipWcAux fuel r (i + k)
      else i

/-- skip_ws_and_comments from convert_footnotes.py. -/
def skip_ws_and_comments (s : List Char) (i : Nat) : Nat :=
  skipWcAux (s.length + 1) (s.drop i) i

/-- extract_braced from convert_footnotes.py: same depth-counting
algorithm as the verse converter's braced-argument parser. -/
def extract_braced (text : List Char) (start : Nat) : Except String (List Char × Nat) :=
  match text.drop start with
  | c :: t =>
    if c = '\x7b' then
      match ConvertVerses.braceScan t 1 with
      | some m => .ok (t.take (m - 1), start + 1 + m)
      | none => .error "Unbalanced braces in footnotetext"
    else .error "extract_braced: start is not at an open brace"
  | [] => .error "extract_braced: start is not at an open brace"

/-- Literal regex search (re.search on a pattern with no operators):
index of the first occurrence of pat at or after the scan position. -/
def findPatAux (pat : List Char) : List Char → Nat → Option Nat
  | [], _ => none
  | c :: t, abs => if pat.isPrefixOf (c :: t) then some abs else findPatAux pat t (abs + 1)

def findPatFrom (s pat : List Char) (i : Nat) : Option Nat :=
  findPatAux pat (s.drop i) i

/-- The literal text matched by the begin-of-environment regex. -/
def beginPat : List Char := cs "\\begin\x7bcustomquote\x7d"

/-- The literal text matched by the end-of-environment regex. -/
def endPat : List Char := cs "\\end\x7bcustomquote\x7d"

/-- The footnotetext-gathering loop of convert: while the text at the
index starts a footnotetext macro, skip the macro name and layout, stop
(keeping the advanced index, as the source does) when no brace follows,
otherwise take the braced body and continue after it. -/
def gatherAux (tex : List Char) : Nat → Nat → Except String (List (List Char) × Nat)
  | 0, j => .ok ([], j)
  | fuel + 1, j =>
    if j < tex.length ∧ (cs "\\footnotetext").isPrefixOf (tex.drop j) then
      let j1 := skip_ws_and_comments tex (j + 13)
      if j1 < tex.length ∧ charD tex j1 = '\x7b' then
        match extract_braced tex j1 with
        | .error e => .error e
        | .ok (content, after) =>
          match gatherAux tex fuel (skip_ws_and_comments tex after) with
          | .error e => .error e
          | .ok (notes, jf) => .ok (content :: notes, jf)
      else .ok ([], j1)
    else .ok ([], j)

/-- Python regex word character (ASCII model), for the word boundary
after footnotemark. -/
def wordChar (c : Char) : Bool := c.isAlpha || c.isDigit || c = '_'

/-- The footnotemark substitution of convert: each match of the
footnotemark macro followed by a word boundary is replaced by a footnote
carrying the next gathered note, until the notes run out; later matches
are kept unchanged. -/
def replaceMarksAux : Nat → List Char → List (List Char) → List Char
  | 0, t, _ => t
  | fuel + 1, t, notes =>
    match t with
    | [] => []
    | c :: t' =>
      if (cs "\\footnotemark").isPrefixOf (c :: t') &&
          (match (c :: t').drop 13 with
           | d :: _ => ! wordChar d
           | [] => true) then
        match notes with
        | note :: rest =>
          cs "\\footnote" ++ '\x7b' :: (note ++ '\x7d' :: replaceMarksAux fuel ((c :: t').drop 13) rest)
        | [] => cs "\\footnotemark" ++ replaceMarksAux fuel ((c :: t').drop 13) []
      else c :: replaceMarksAux fuel t' notes

/-- The block-rewriting loop of convert from convert_footnotes.py. -/
def convertQuotes (tex : List Char) : Nat → Nat → Except String (List Char)
  | 0, i => .ok (tex.drop i)
  | fuel + 1, i =>
    match findPatFrom tex beginPat i with
    | none => .ok (tex.drop i)
    | some p =>
      match findPatFrom tex endPat (p + 19) with
      | none => .ok (sliceL tex i p ++ tex.drop p)
      | some q =>
        let blockEnd := q + 17
        let block := sliceL tex p blockEnd
        match gatherAux tex (tex.length + 1) (skip_ws_and_comments tex blockEnd) with
        | .error e => .error e
        | .ok (notes, j) =>
          match convertQuotes tex fuel j with
          | .error e => .error e
          | .ok o => .ok (sliceL tex i p ++ (replaceMarksAux (block.length + 1) block notes ++ o))

/-- convert from convert_footnotes.py. -/
def convert (tex : List Char) : Except String (List Char) :=
  convertQuotes tex (tex.length + 1) 0

end ConvertFootnotes

namespace AddLabels

/-- The four whitespace characters accepted by the skipper of
add_labels_to_secs.py. -/
def wsChar (c : Char) : Bool := c = ' ' || c = '\t' || c = '\r' || c = '\n'

/-- Loop of skip_ws_and_comments from add_labels_to_secs.py: this
variant consumes the newline that ends a comment explicitly. -/
def skipWcAux : Nat → List Char → Nat → Nat
  | 0, _, pos => pos
  | fuel + 1, t, pos =>
    match t with
    | [] => pos
    | c :: t' =>
      if wsChar c then skipWcAux fuel t' (pos + 1)
      else if c = '%' then
        match splitAtNewline (c :: t') with
        | (k, d :: r) =>
          if d = '\n' then skipWcAux fuel r (pos + k + 1) else pos + k
        | (k, []) => pos + k
      else pos

/-- skip_ws_and_comments from add_labels_to_secs.py. -/
def skip_ws_and_comments (s : List Char) (pos : Nat) : Nat :=
  skipWcAux (s.length + 1) (s.drop pos) pos

/-- LABEL_AHEAD_RE.match: a label macro anchored at the head of t, with
a nonempty brace-free body. -/
def labelMatchAt (t : List Char) : Option (List Char) :=
  if (cs "\\label").isPrefixOf t then
    match t.drop 6 with
    | c :: r =>
      if c = '\x7b' then
        let body := r.takeWhile (· ≠ '\x7d')
        if body ≠ [] ∧ r.dropWhile (· ≠ '\x7d') ≠ [] then some body else none
      else none
    | [] => none
  else none

/-- find_existing_label_ahead from add_labels_to_secs.py (only the label
group is used by the caller). -/
def find_existing_label_ahead (s : List Char) (pos : Nat) : Option (List Char) :=
  labelMatchAt (s.drop (skip_ws_and_comments s pos))

/-- Model of the NFKD normalisation followed by the ascii-ignore
encoding step of slugify: ASCII characters are kept, characters with a
Latin decomposition lose their diacritic, all other characters are
dropped. -/
def asciiApprox (c : Char) : List Char :=
  if c.toNat < 128 then [c]
  else if c ∈ cs "ÀÁÂÃÄÅ" then ['A']
  else if c ∈ cs "àáâãäå" then ['a']
  else if c ∈ cs "ÈÉÊË" then ['E']
  else if c ∈ cs "èéêë" then ['e']
  else if c ∈ cs "ÌÍÎÏ" then ['I']
  else if c ∈ cs "ìíîï" then ['i']
  else if c ∈ cs "ÒÓÔÕÖ" then ['O']
  else if c ∈ cs "òóôõö" then ['o']
  else if c ∈ cs "ÙÚÛÜ" then ['U']
  else if c ∈ cs "ùúûü" then ['u']
  else if c ∈ cs "Ññ" then if c = 'Ñ' then ['N'] else ['n']
  else if c ∈ cs "Çç" then if c = 'Ç' then ['C'] else ['c']
  else []

/-- Lower-case ASCII letter or digit, the character class kept by the
slug regex. -/
def slugKeep (c : Char) : Bool :=
  ('a'.toNat ≤ c.toNat && c.toNat ≤ 'z'.toNat) || c.isDigit

/-- The regex substitution of slugify: every run of characters outside
the kept class becomes a single hyphen. -/
def collapseSlugAux : Bool → List Char → List Char
  | _, [] => []
  | inRun, c :: t =>
    if slugKeep c then c :: collapseSlugAux false t
    else if inRun then collapseSlugAux true t
    else '-' :: collapseSlugAux true t

/-- slugify from add_labels_to_secs.py. -/
def slugify (text : List Char) : List Char :=
  let folded := (text.map asciiApprox).flatten
  let collapsed := collapseSlugAux false (folded.map Char.toLower)
  let stripped := ((collapsed.dropWhile (· = '-')).reverse.dropWhile (· = '-')).reverse
  if stripped = [] then ['x'] else stripped

/-- The heading words of HEADING_RE in the order of the alternation. -/
def headingWords : List (List Char) :=
  [cs "chapter", cs "section", cs "subsection", cs "subsubsection"]

/-- HEADING_RE matched at the head of t: a backslash, one of the four
heading words, an optional star, optional whitespace, an optional
bracketed short title, optional whitespace, then a braced title with no
nested braces.  Returns the command word, the title text and the number
of characters matched. -/
def headingMatchAt (t : List Char) : Option (List Char × List Char × Nat) :=
  match t with
  | c :: t1 =>
    if c = '\\' then
      match headingWords.find? (fun w => w.isPrefixOf t1) with
      | some w =>
        let t2 := t1.drop w.length
        let t3 := match t2 with
          | d :: r => if d = '*' then r else t2
          | [] => t2
        let t4 := t3.dropWhile pyIsSpace
        let t5 := match t4 with
          | d :: r =>
            if d = '[' then
              match r.dropWhile (· ≠ ']') with
              | _ :: r2 => r2
              | [] => t4
            else t4
          | [] => t4
        let t6 := t5.dropWhile pyIsSpace
        match t6 with
        | d :: r =>
          if d = '\x7b' then
            let body := r.takeWhile (· ≠ '\x7d')
            match r.dropWhile (· ≠ '\x7d') with
            | _ :: r3 => some (w, body, t.length - r3.length)
            | [] => none
          else none
        | [] => none
      | none => none
    else none
  | [] => none

/-- Scan of HEADING_RE.finditer for the next match at or after the
current absolute position. -/
def findHeadingAux : List Char → Nat → Option (Nat × List Char × List Char × Nat)
  | [], _ => none
  | c :: t, abs =>
    match headingMatchAt (c :: t) with
    | some (w, title, len) => some (abs, w, title, abs + len)
    | none => findHeadingAux t (abs + 1)

def findHeadingFrom (text : List Char) (p : Nat) : Option (Nat × List Char × List Char × Nat) :=
  findHeadingAux (text.drop p) p

/-- The label prefix chosen from the heading command (PREFIX.get with
default "sec"). -/
def prefixFor (cmd : List Char) : List Char :=
  if cmd = cs "chapter" then cs "chap"
  else if cmd = cs "section" then cs "sec"
  else if cmd = cs "subsection" then cs "subsec"
  else if cmd = cs "subsubsection" then cs "subsubsec"
  else cs "sec"

/-- Decimal representation of a natural number, as produced by Python
str on the counter of unique_label. -/
def natRepr (n : Nat) : List Char :=
  if n < 10 then [Nat.digitChar n]
  else natRepr (n / 10) ++ [Nat.digitChar (n % 10)]
decreasing_by exact Nat.div_lt_self (by omega) (by omega)

/-- The candidate label base-i tried by unique_label. -/
def labelCand (base : List Char) (i : Nat) : List Char := base ++ '-' :: natRepr i

/-- The candidate-searching loop of unique_label, bounded by a fuel that
provably dominates the first free index. -/
def findFreeIdx (base : List Char) (used : List (List Char)) : Nat → Nat → Nat
  | 0, i => i
  | fuel + 1, i => if labelCand base i ∈ used then findFreeIdx base used fuel (i + 1) else i

/-- unique_label from add_labels_to_secs.py: return the base when it is
free, otherwise the first free numbered candidate starting from 2; the
returned label is added to the used set. -/
def unique_label (base : List Char) (used : List (List Char)) :
    List Char × List (List Char) :=
  if base ∈ used then
    let lab := labelCand base (findFreeIdx base used (used.length + 1) 2)
    (lab, lab :: used)
  else (base, base :: used)

/-- The label macro text inserted after a heading. -/
def labelText (label : List Char) : List Char :=
  cs "\\label" ++ '\x7b' :: (label ++ ['\x7d'])

/-- The finditer loop of process_text: scanPos is the position the match
iterator has reached, last is the end of the text already emitted.
Headings already followed by a label are skipped; otherwise the text up
to the end of the heading plus a fresh label is emitted. -/
def processLoop (text : List Char) : Nat → Nat → Nat → List (List Char) →
    List Char × Nat × List (List Char)
  | 0, _, last, used => (text.drop last, 0, used)
  | fuel + 1, scanPos, last, used =>
    match findHeadingFrom text scanPos with
    | none => (text.drop last, 0, used)
    | some (_, w, title, e) =>
      match find_existing_label_ahead text e with
      | some _ => processLoop text fuel e last used
      | none =>
        let base := prefixFor w ++ '-' :: slugify title
        let lu := unique_label base used
        let r := processLoop text fuel e e lu.2
        (sliceL text last e ++ (labelText lu.1 ++ r.1), r.2.1 + 1, r.2.2)

/-- process_text from add_labels_to_secs.py, also returning the updated
used-label set that the Python version mutates in place. -/
def process_text (text : List Char) (used : List (List Char)) :
    List Char × Nat × List (List Char) :=
  processLoop text (text.length + 1) 0 0 used

/-- Decidable check that every heading match in the text is already
followed by a label (positions beyond the length cannot match). -/
def allHeadingsLabeled (text : List Char) : Bool :=
  (List.range (text.length + 1)).all fun q =>
    match findHeadingFrom text q with
    | none => true
    | some r => (find_existing_label_ahead text r.2.2.2).isSome

end AddLabels



namespace ConvertVerses

lemma braceScan_cons_open (t : List Char) (d : Int) :
    braceScan ('\x7b' :: t) d = (braceScan t (d + 1)).map (· + 1) := by
  simp [braceScan]

lemma braceScan_cons_close (t : List Char) (d : Int) (hd : ¬ d - 1 = 0) :
    braceScan ('\x7d' :: t) d = (braceScan t (d - 1)).map (· + 1) := by
  simp [braceScan, hd]

lemma braceScan_cons_other (c : Char) (t : List Char) (d : Int)
    (h1 : ¬ c = '\x7b') (h2 : ¬ c = '\x7d') :
    braceScan (c :: t) d = (braceScan t d).map (· + 1) := by
  simp [braceScan, h1, h2]

lemma braceScan_append (t u : List Char) (d : Int) (hd : 1 ≤ d)
    (h : ∀ k, k ≤ t.length →
      ((t.take k).count '\x7d' : Int) - ((t.take k).count '\x7b' : Int) < d) :
    braceScan (t ++ u) d =
      (braceScan u (d + ((t.count '\x7b' : Int) - (t.count '\x7d' : Int)))).map
        (· + t.length) := by
  induction t generalizing d with
  | nil =>
    have he : d + ((((([] : List Char).count '\x7b') : Int)) -
        (((([] : List Char).count '\x7d') : Int))) = d := by simp
    rw [List.nil_append, he]
    cases braceScan u d <;> simp
  | cons c t ih =>
    rw [List.cons_append]
    by_cases hc : c = '\x7b'
    · subst hc
      have h1 : ∀ k, k ≤ t.length →
          ((t.take k).count '\x7d' : Int) - ((t.take k).count '\x7b' : Int) < d + 1 := by
        intro k hk
        have h2 := h (k + 1) (by simp; omega)
        simp only [List.take_succ_cons, List.count_cons] at h2
        simp at h2
        omega
      have he : d + 1 + ((t.count '\x7b' : Int) - (t.count '\x7d' : Int)) =
          d + ((((('\x7b' :: t).count '\x7b') : Int)) - ((('\x7b' :: t).count '\x7d') : Int)) := by
        simp [List.count_cons]
        omega
      rw [braceScan_cons_open, ih (d + 1) (by omega) h1, he]
      cases braceScan u (d + ((((('\x7b' :: t).count '\x7b') : Int)) -
        ((('\x7b' :: t).count '\x7d') : Int))) <;> simp <;> omega
    · by_cases hc2 : c = '\x7d'
      · subst hc2
        have hd2 : 2 ≤ d := by
          have h2 := h 1 (by simp)
          simp [List.count_cons] at h2
          omega
        have h1 : ∀ k, k ≤ t.length →
            ((t.take k).count '\x7d' : Int) - ((t.take k).count '\x7b' : Int) < d - 1 := by
          intro k hk
          have h2 := h (k + 1) (by simp; omega)
          simp only [List.take_succ_cons, List.count_cons] at h2
          simp at h2
          omega
        have he : d - 1 + ((t.count '\x7b' : Int) - (t.count '\x7d' : Int)) =
            d + ((((('\x7d' :: t).count '\x7b') : Int)) - ((('\x7d' :: t).count '\x7d') : Int)) := by
          simp [List.count_cons]
          omega
        rw [braceScan_cons_close _ _ (by omega), ih (d - 1) (by omega) h1, he]
        cases braceScan u (d + ((((('\x7d' :: t).count '\x7b') : Int)) -
          ((('\x7d' :: t).count '\x7d') : Int))) <;> simp <;> omega
      · have h1 : ∀ k, k ≤ t.length →
            ((t.take k).count '\x7d' : Int) - ((t.take k).count '\x7b' : Int) < d := by
          intro k hk
          have h2 := h (k + 1) (by simp; omega)
          simp only [List.take_succ_cons, List.count_cons] at h2
          simp [hc, hc2] at h2
          omega
        have he : d + ((t.count '\x7b' : Int) - (t.count '\x7d' : Int)) =
            d + (((((c :: t).count '\x7b') : Int)) - ((((c :: t).count '\x7d') : Int))) := by
          simp [List.count_cons, hc, hc2]
        rw [braceScan_cons_other c _ _ hc hc2, ih d hd h1, he]
        cases braceScan u (d + (((((c :: t).count '\x7b') : Int)) -
          ((((c :: t).count '\x7d') : Int)))) <;> simp <;> omega

lemma braceScan_closing (b rest : List Char) (hb : Balanced b) :
    braceScan (b ++ '\x7d' :: rest) 1 = some (b.length + 1) := by
  have h : ∀ k, k ≤ b.length →
      ((b.take k).count '\x7d' : Int) - ((b.take k).count '\x7b' : Int) < 1 := by
    intro k hk
    have := hb.2 k hk
    omega
  rw [braceScan_append b ('\x7d' :: rest) 1 le_rfl h]
  have he : (1 : Int) + ((b.count '\x7b' : Int) - (b.count '\x7d' : Int)) = 1 := by
    have := hb.1
    omega
  rw [he]
  have h1 : braceScan ('\x7d' :: rest) 1 = some 1 := by
    simp [braceScan]
  rw [h1]
  simp [Nat.add_comm]

lemma parse_braced_arg_eq_of_drop (s : List Char) (i : Nat) (t : List Char)
    (h : s.drop i = '\x7b' :: t) :
    parse_braced_arg s i =
      match braceScan t 1 with
      | some m => .ok (t.take (m - 1), i + 1 + m)
      | none => .error "Unclosed arg while parsing Verse" := by
  unfold parse_braced_arg
  rw [h]
  rfl

/-- C1: given a position at an opening brace whose content is a balanced
string of arbitrarily deeply nested braces, parse_braced_arg returns
exactly that content (inner structure byte-for-byte intact, inner
closing braces of nested groups never terminating the outer group)
together with the position immediately following the matching closing
brace. -/
theorem parse_braced_arg_nested (pre b rest : List Char) (hb : Balanced b) :
    parse_braced_arg (pre ++ '\x7b' :: (b ++ '\x7d' :: rest)) pre.length =
      .ok (b, pre.length + b.length + 2) := by
  rw [parse_braced_arg_eq_of_drop _ _ (b ++ '\x7d' :: rest) (List.drop_left pre _)]
  rw [braceScan_closing b rest hb]
  simp only [Nat.add_sub_cancel, List.take_left]
  have : pre.length + 1 + (b.length + 1) = pre.length + b.length + 2 := by omega
  rw [this]

/-- C1 witness: the theorem applied at a concrete second argument
containing a nested footnote group. -/
theorem parse_braced_arg_nested_witness :
    Balanced (cs "x\\footnote\x7ba\x7bb\x7dc\x7d y") ∧
    parse_braced_arg
        (cs "pre" ++ '\x7b' :: (cs "x\\footnote\x7ba\x7bb\x7dc\x7d y" ++ '\x7d' :: cs "tail"))
        (cs "pre").length =
      .ok (cs "x\\footnote\x7ba\x7bb\x7dc\x7d y",
        (cs "pre").length + (cs "x\\footnote\x7ba\x7bb\x7dc\x7d y").length + 2) :=
  ⟨by decide, parse_braced_arg_nested _ _ _ (by decide)⟩

end ConvertVerses

namespace ConvertVerses

lemma charD_cons_drop (s : List Char) (i : Nat) (h : i < s.length) :
    s.drop i = charD s i :: s.drop (i + 1) := by
  rw [List.drop_eq_getElem_cons h]
  congr 1
  simp [charD, List.getD, List.getElem?_eq_getElem h]

lemma skip_ws_stop (s : List Char) (i : Nat) (h : s.length ≤ i) : skip_ws s i = i := by
  unfold skip_ws
  rw [List.drop_eq_nil_of_le h]
  rfl

lemma skip_ws_step (s : List Char) (i : Nat) (h : i < s.length) :
    skip_ws s i = if pyIsSpace (charD s i) then skip_ws s (i + 1) else i := by
  unfold skip_ws
  rw [charD_cons_drop s i h]
  rfl

lemma skip_ws_props (s : List Char) : ∀ i,
    i ≤ skip_ws s i ∧
    (i ≤ s.length → skip_ws s i ≤ s.length) ∧
    (∀ p, i ≤ p → p < skip_ws s i → p < s.length ∧ pyIsSpace (charD s p) = true) ∧
    (skip_ws s i < s.length → pyIsSpace (charD s (skip_ws s i)) = false) := by
  intro i
  generalize hm : s.length - i = m
  induction m generalizing i with
  | zero =>
    have hle : s.length ≤ i := by omega
    rw [skip_ws_stop s i hle]
    exact ⟨le_rfl, fun h => h, fun p hp1 hp2 => absurd hp2 (by omega),
      fun h => absurd h (by omega)⟩
  | succ m ih =>
    have hi : i < s.length := by omega
    rw [skip_ws_step s i hi]
    by_cases hsp : pyIsSpace (charD s i) = true
    · rw [if_pos hsp]
      obtain ⟨a1, a2, a3, a4⟩ := ih (i + 1) (by omega)
      refine ⟨by omega, fun _ => a2 (by omega), ?_, a4⟩
      intro p hp1 hp2
      by_cases hpi : p = i
      · subst hpi
        exact ⟨hi, hsp⟩
      · exact a3 p (by omega) hp2
    · rw [if_neg hsp]
      exact ⟨le_rfl, fun _ => by omega, fun p hp1 hp2 => absurd hp2 (by omega),
        fun _ => by simpa using hsp⟩

lemma skip_ws_ge (s : List Char) (i : Nat) : i ≤ skip_ws s i := (skip_ws_props s i).1

/-- C4 counterexample: the skipper that the Verse invocation parser
applies after the macro name, after the bracket argument and between the
brace arguments is skip_ws, and skip_ws does not skip comments.  On the
input below the smallest position at or after 0 holding a character that
is neither whitespace nor part of a percent comment is 4 (the letter x),
but skip_ws returns 1, the position of the comment marker itself; the
comment-aware skipper of the footnote converter, not used by the Verse
parser, does return 4. -/
theorem skip_ws_stops_at_comment_marker :
    skip_ws (cs " %c\nx") 0 = 1 ∧ charD (cs " %c\nx") 1 = '%' ∧
    ConvertFootnotes.skip_ws_and_comments (cs " %c\nx") 0 = 4 ∧
    charD (cs " %c\nx") 4 = 'x' := by decide

/-- C4 as amended: the whitespace skipper applied by the Verse
macro-invocation parser returns, for every position, the smallest
position greater than or equal to the input position at which a
non-whitespace character occurs (or end of stream) and never fails; it
treats a comment marker like any other non-whitespace character. -/
theorem skip_ws_first_nonspace (s : List Char) (i : Nat) :
    i ≤ skip_ws s i ∧
    (i ≤ s.length → skip_ws s i ≤ s.length) ∧
    (∀ p, i ≤ p → p < skip_ws s i → p < s.length ∧ pyIsSpace (charD s p) = true) ∧
    (skip_ws s i < s.length → pyIsSpace (charD s (skip_ws s i)) = false) :=
  skip_ws_props s i

/-- C4 witness: the amended theorem applied at a concrete input, with
every hypothesis discharged by computation. -/
theorem skip_ws_first_nonspace_witness :
    (0:Nat) ≤ skip_ws (cs "  a b") 0 ∧
    skip_ws (cs "  a b") 0 ≤ (cs "  a b").length ∧
    pyIsSpace (charD (cs "  a b") 1) = true ∧
    pyIsSpace (charD (cs "  a b") (skip_ws (cs "  a b") 0)) = false := by
  have h := skip_ws_first_nonspace (cs "  a b") 0
  exact ⟨h.1, h.2.1 (by decide), (h.2.2.1 1 (by decide) (by decide)).2, h.2.2.2 (by decide)⟩

end ConvertVerses

namespace ConvertVerses

lemma findCharAux_ge : ∀ (t : List Char) (x : Char) (k j : Nat),
    findCharAux t x k = some j → k ≤ j := by
  intro t
  induction t with
  | nil =>
    intro x k j h
    simp [findCharAux] at h
  | cons c t ih =>
    intro x k j h
    simp only [findCharAux] at h
    split at h
    · cases h
      exact le_rfl
    · have := ih x (k + 1) j h
      omega

lemma parse_optional_bracket_ok_ge (s : List Char) (i : Nat) (r : Option (List Char))
    (j : Nat) (h : parse_optional_bracket s i = .ok (r, j)) : i ≤ j := by
  unfold parse_optional_bracket at h
  split at h
  · split at h
    · rename_i jf hf
      cases h
      have := findCharAux_ge _ _ _ _ hf
      omega
    · cases h
  · cases h
    exact le_rfl

lemma parse_braced_arg_ok_lt (s : List Char) (i : Nat) (c : List Char) (j : Nat)
    (h : parse_braced_arg s i = .ok (c, j)) : i < j := by
  unfold parse_braced_arg at h
  split at h
  · split at h
    · split at h
      · cases h
        omega
      · cases h
    · cases h
  · cases h

/-- C3: the document scan loop of convert_content makes forward
progress: every loop iteration advances the cursor by at least one
position (by exactly one on a literal-copy step, to the end of the
consumed invocation on a successful conversion), so on any run that
completes with a result the number of loop iterations performed is
bounded by the number of characters not yet scanned, hence by the input
length; a run that stops with an error performs no further iterations,
so the scan never loops forever on any input. -/
theorem convertLoop_iterations_le : ∀ (fuel : Nat) (tex : List Char) (i : Nat)
    (o : List Char) (n k : Nat),
    convertLoop fuel tex i = .ok (o, n, k) → k ≤ tex.length - i := by
  intro fuel
  induction fuel with
  | zero =>
    intro tex i o n k h
    simp only [convertLoop] at h
    cases h
    omega
  | succ fuel ih =>
    intro tex i o n k h
    simp only [convertLoop] at h
    by_cases hi : i < tex.length
    · rw [if_pos hi] at h
      by_cases hv : startsWithAt tex verseName i = true
      · rw [if_pos hv] at h
        have h60 : i + 6 ≤ skip_ws tex (i + 6) := skip_ws_ge tex (i + 6)
        split at h
        · cases h
        · rename_i ref j2 heq
          have hj2 : i + 6 ≤ j2 := by
            split at heq
            · split at heq
              · rename_i r1 j1 hob
                cases heq
                have h1 := parse_optional_bracket_ok_ge _ _ _ _ hob
                have h2 := skip_ws_ge tex j1
                omega
              · cases heq
            · cases heq
              omega
          split at h
          · split at h
            · cases h
            · rename_i sa j3 hsa
              have hj3 : j2 < j3 := parse_braced_arg_ok_lt _ _ _ _ hsa
              have hj4 : j3 ≤ skip_ws tex j3 := skip_ws_ge tex j3
              split at h
              · split at h
                · cases h
                · rename_i en j5 hen
                  have hj5 : skip_ws tex j3 < j5 := parse_braced_arg_ok_lt _ _ _ _ hen
                  split at h
                  · cases h
                  · rename_i o2 n2 k2 hrec
                    cases h
                    have := ih tex j5 _ _ _ hrec
                    omega
              · split at h
                · cases h
                · rename_i o2 n2 k2 hrec
                  cases h
                  have := ih tex (i + 1) _ _ _ hrec
                  omega
          · split at h
            · cases h
            · rename_i o2 n2 k2 hrec
              cases h
              have := ih tex (i + 1) _ _ _ hrec
              omega
      · rw [if_neg hv] at h
        split at h
        · cases h
        · rename_i o2 n2 k2 hrec
          cases h
          have := ih tex (i + 1) _ _ _ hrec
          omega
    · rw [if_neg hi] at h
      cases h
      omega

/-- C3 witness: the bound evaluated on a concrete run of the scan loop
(five literal-copy iterations over a five-character input). -/
theorem convertLoop_iterations_le_witness :
    convertLoop 6 (cs "hello") 0 = .ok (cs "hello", 0, 5) ∧
    (5 : Nat) ≤ (cs "hello").length - 0 :=
  ⟨by decide, convertLoop_iterations_le 6 (cs "hello") 0 (cs "hello") 0 5 (by decide)⟩

end ConvertVerses

namespace ConvertVerses

lemma startsWithAt_lt (tex : List Char) (j : Nat)
    (h : startsWithAt tex verseName j = true) : j < tex.length := by
  unfold startsWithAt at h
  rw [List.isPrefixOf_iff_prefix] at h
  have hlen := h.length_le
  simp [List.length_drop] at hlen
  have h6 : verseName.length = 6 := by decide
  omega

lemma convertLoop_no_verse (tex : List Char)
    (hnv : ∀ j, ¬ startsWithAt tex verseName j = true) :
    ∀ fuel i, tex.length ≤ fuel + i →
      convertLoop fuel tex i = .ok (tex.drop i, 0, tex.length - i) := by
  intro fuel
  induction fuel with
  | zero =>
    intro i hle
    simp only [convertLoop]
    have h1 : tex.length - i = 0 := by omega
    rw [h1]
  | succ fuel ih =>
    intro i hle
    simp only [convertLoop]
    by_cases hi : i < tex.length
    · rw [if_pos hi, if_neg (hnv i), ih (i + 1) (by omega)]
      have hdrop : tex.drop i = charD tex i :: tex.drop (i + 1) := charD_cons_drop tex i hi
      have harith : tex.length - i = (tex.length - (i + 1)) + 1 := by omega
      rw [hdrop, harith]
    · rw [if_neg hi]
      have h1 : tex.drop i = [] := List.drop_eq_nil_of_le (by omega)
      have h2 : tex.length - i = 0 := by omega
      rw [h1, h2]

/-- C5: on a document that contains no occurrence of the Verse macro
name at any position, the scan returns the input unchanged together with
a conversion count of zero. -/
theorem convert_content_no_verse (tex : List Char)
    (h : ∀ j, j < tex.length → ¬ startsWithAt tex verseName j = true) :
    convert_content tex = .ok (tex, 0) := by
  have hnv : ∀ j, ¬ startsWithAt tex verseName j = true := by
    intro j hj
    exact h j (startsWithAt_lt tex j hj) hj
  unfold convert_content
  rw [convertLoop_no_verse tex hnv (tex.length + 1) 0 (by omega)]
  simp

/-- C5 witness: the theorem applied to a concrete macro-free document,
with the no-occurrence hypothesis discharged by computation. -/
theorem convert_content_no_verse_witness :
    (∀ j, j < (cs "plain text").length →
      ¬ startsWithAt (cs "plain text") verseName j = true) ∧
    convert_content (cs "plain text") = .ok (cs "plain text", 0) :=
  ⟨by decide, convert_content_no_verse _ (by decide)⟩

end ConvertVerses

namespace ConvertVerses

/-- C6: for the input Verse invocation with reference 1.12 and English
argument "He said: rest", the formatted translation consists of two
logical lines joined by an explicit linebreak marker inserted after
"said:", and "(1.12)" is appended to the end of the translation text
exactly once; the appending step returns a translation unchanged when it
already ends with "(1.12)". -/
theorem verse_ref_linebreak_scenario :
    convert_content (cs "\\Verse[1.12]\x7ba\x7d\x7bHe said: rest\x7d") =
      .ok (cs "\n\\par\n\\begin\x7bverse\x7d\n\\textit\x7ba\x7d\n\n\\noindent He said:\\linebreak rest (1.12)\n\\end\x7bverse\x7d\n\\par\n", 1) ∧
    normalize_english (cs "He said: rest") = cs "He said:\\linebreak rest" ∧
    append_ref_to_translation (cs "He said:\\linebreak rest") (cs "1.12") =
      cs "He said:\\linebreak rest (1.12)" ∧
    append_ref_to_translation (cs "He said:\\linebreak rest (1.12)") (cs "1.12") =
      cs "He said:\\linebreak rest (1.12)" := by decide

/-- C2 counterexample: a candidate Verse occurrence with an unbalanced
brace argument, and one with an unterminated bracket argument, are not
resolved by literal-copy fallback: the scan aborts the whole run with an
error (modelling the uncaught ValueError raised by parse_braced_arg and
parse_optional_bracket), so the claim that every structural parse
failure is recovered and the run never aborted is false on the code. -/
theorem convert_content_unbalanced_aborts :
    convert_content (cs "\\Verse\x7ba") = .error "Unclosed arg while parsing Verse" ∧
    convert_content (cs "\\Verse[1.2 rest") = .error "Unclosed ref in Verse" := by decide

/-- C2 as amended: only the structural failures in which the expected
opening brace of the first or of the second mandatory argument is absent
at the scan position are resolved by literal-copy fallback — the
character at the original macro position is emitted unchanged, the
conversion count is not incremented for that occurrence, and scanning
resumes one character after the macro position (so the rest of the
occurrence is subsequently copied as ordinary text) — whereas unbalanced
braces inside an argument and unterminated bracket arguments abort the
run with an error.  Here j2 is the scan position of the expected first
brace argument, reached either directly (no bracket argument after the
macro name) or after a successfully parsed bracket argument followed by
the whitespace skipper, so both bracketed and bracketless occurrences
are covered. -/
theorem convert_missing_brace_literal_copy (fuel : Nat) (tex : List Char) (i j2 : Nat)
    (hi : i < tex.length) (hv : startsWithAt tex verseName i = true)
    (hj2 : (¬ (skip_ws tex (i + 6) < tex.length ∧ charD tex (skip_ws tex (i + 6)) = '[') ∧
              j2 = skip_ws tex (i + 6)) ∨
           ((skip_ws tex (i + 6) < tex.length ∧ charD tex (skip_ws tex (i + 6)) = '[') ∧
              ∃ r j1, parse_optional_bracket tex (skip_ws tex (i + 6)) = .ok (r, j1) ∧
                j2 = skip_ws tex j1)) :
    (¬ (j2 < tex.length ∧ charD tex j2 = '\x7b') →
      convertLoop (fuel + 1) tex i =
        (convertLoop fuel tex (i + 1)).map fun r => (charD tex i :: r.1, r.2.1, r.2.2 + 1)) ∧
    (∀ sa j3,
      (j2 < tex.length ∧ charD tex j2 = '\x7b') →
      parse_braced_arg tex j2 = .ok (sa, j3) →
      ¬ (skip_ws tex j3 < tex.length ∧ charD tex (skip_ws tex j3) = '\x7b') →
      convertLoop (fuel + 1) tex i =
        (convertLoop fuel tex (i + 1)).map fun r => (charD tex i :: r.1, r.2.1, r.2.2 + 1)) := by
  have hmain : ∃ ref, convertLoop (fuel + 1) tex i =
      (if j2 < tex.length ∧ charD tex j2 = '\x7b' then
        match parse_braced_arg tex j2 with
        | .error e => .error e
        | .ok (sa, j3) =>
          if skip_ws tex j3 < tex.length ∧ charD tex (skip_ws tex j3) = '\x7b' then
            match parse_braced_arg tex (skip_ws tex j3) with
            | .error e => .error e
            | .ok (en, j5) =>
              match convertLoop fuel tex j5 with
              | .error e => .error e
              | .ok (o, n, k) => .ok (format_verse_block ref sa en ++ o, n + 1, k + 1)
          else
            match convertLoop fuel tex (i + 1) with
            | .error e => .error e
            | .ok (o, n, k) => .ok (charD tex i :: o, n, k + 1)
      else
        match convertLoop fuel tex (i + 1) with
        | .error e => .error e
        | .ok (o, n, k) => .ok (charD tex i :: o, n, k + 1)) := by
    rcases hj2 with ⟨hnb, hje⟩ | ⟨hb, r, j1, hob, hje⟩
    · refine ⟨none, ?_⟩
      subst hje
      simp only [convertLoop]
      rw [if_pos hi, if_pos hv, if_neg hnb]
    · refine ⟨r, ?_⟩
      subst hje
      simp only [convertLoop]
      rw [if_pos hi, if_pos hv, if_pos hb, hob]
  obtain ⟨ref, hmain⟩ := hmain
  constructor
  · intro hnb2
    rw [hmain, if_neg hnb2]
    cases hc : convertLoop fuel tex (i + 1)
    · rfl
    · rfl
  · intro sa j3 hb2 hsa hnb2
    rw [hmain, if_pos hb2]
    split
    · rename_i e heq2
      rw [hsa] at heq2
      cases heq2
    · rename_i sa2 j32 heq2
      rw [hsa] at heq2
      cases heq2
      rw [if_neg hnb2]
      cases hc : convertLoop fuel tex (i + 1)
      · rfl
      · rfl

/-- C2 witness: the amended theorem applied at four concrete inputs
covering a missing first brace argument and a missing second brace
argument, each both without and with a parsed bracket argument, with
every hypothesis discharged by computation. -/
theorem convert_missing_brace_literal_copy_witness :
    convertLoop 11 (cs "\\Verse end") 0 =
      (convertLoop 10 (cs "\\Verse end") 1).map
        (fun r => (charD (cs "\\Verse end") 0 :: r.1, r.2.1, r.2.2 + 1)) ∧
    convertLoop 14 (cs "\\Verse[1.2] x") 0 =
      (convertLoop 13 (cs "\\Verse[1.2] x") 1).map
        (fun r => (charD (cs "\\Verse[1.2] x") 0 :: r.1, r.2.1, r.2.2 + 1)) ∧
    convertLoop 13 (cs "\\Verse\x7ba\x7d end") 0 =
      (convertLoop 12 (cs "\\Verse\x7ba\x7d end") 1).map
        (fun r => (charD (cs "\\Verse\x7ba\x7d end") 0 :: r.1, r.2.1, r.2.2 + 1)) ∧
    convertLoop 15 (cs "\\Verse[r]\x7ba\x7d end") 0 =
      (convertLoop 14 (cs "\\Verse[r]\x7ba\x7d end") 1).map
        (fun r => (charD (cs "\\Verse[r]\x7ba\x7d end") 0 :: r.1, r.2.1, r.2.2 + 1)) :=
  ⟨(convert_missing_brace_literal_copy 10 _ 0 7 (by decide) (by decide)
      (Or.inl ⟨by decide, by decide⟩)).1 (by decide),
   (convert_missing_brace_literal_copy 13 _ 0 12 (by decide) (by decide)
      (Or.inr ⟨by decide, some (cs "1.2"), 11, by decide, by decide⟩)).1 (by decide),
   (convert_missing_brace_literal_copy 12 _ 0 6 (by decide) (by decide)
      (Or.inl ⟨by decide, by decide⟩)).2 (cs "a") 9 (by decide) (by decide) (by decide),
   (convert_missing_brace_literal_copy 14 _ 0 9 (by decide) (by decide)
      (Or.inr ⟨by decide, some (cs "r"), 9, by decide, by decide⟩)).2 (cs "a") 12
      (by decide) (by decide) (by decide)⟩

end ConvertVerses

namespace ConvertVerses

/-- C8: the formatter keeps footnote groups of the English argument
inline inside the translation line of the verse environment.  The first
conjunct shows that for every invocation the whole English-derived text
sits between the noindent marker and the end of the verse environment,
and that everything after it is the fixed closing text, so no footnote
text is ever emitted after the end of the environment.  The remaining
conjuncts show on the nested-footnote input that the
whitespace-normalising translation pipeline leaves the footnote group
inside the translation intact, while the brace-aware footnote extractor
that also exists in the module would have removed it - format_verse_block
deliberately does not call it. -/
theorem footnotes_kept_inline :
    (∀ r sa en, format_verse_block r sa en =
      cs "\n\\par\n\\begin\x7bverse\x7d\n" ++ sa_to_verse_body sa ++ cs "\n\n\\noindent " ++
        append_ref_to_translation (normalize_english en) (stripWs (r.getD [])) ++
        cs "\n\\end\x7bverse\x7d\n\\par\n") ∧
    normalize_english (cs "outer \\footnote\x7binner \x7bnested\x7d note\x7d tail") =
      cs "outer \\footnote\x7binner \x7bnested\x7d note\x7d tail" ∧
    format_verse_block none (cs "x") (cs "outer \\footnote\x7binner \x7bnested\x7d note\x7d tail") =
      cs "\n\\par\n\\begin\x7bverse\x7d\n\\textit\x7bx\x7d\n\n\\noindent outer \\footnote\x7binner \x7bnested\x7d note\x7d tail\n\\end\x7bverse\x7d\n\\par\n" ∧
    extract_footnotes_brace_aware (cs "outer \\footnote\x7binner \x7bnested\x7d note\x7d tail") =
      .ok (cs "outer tail", [cs "inner \x7bnested\x7d note"]) :=
  ⟨fun r sa en => rfl, by decide, by decide, by decide⟩

end ConvertVerses

namespace ConvertFootnotes

lemma findPatAux_ge (pat : List Char) : ∀ (t : List Char) (abs j : Nat),
    findPatAux pat t abs = some j → abs ≤ j := by
  intro t
  induction t with
  | nil =>
    intro abs j h
    simp [findPatAux] at h
  | cons c t ih =>
    intro abs j h
    simp only [findPatAux] at h
    split at h
    · cases h
      exact le_rfl
    · have := ih (abs + 1) j h
      omega

/-- C10: when a begin-customquote marker has no matching end marker
later in the document, the conversion loop emits the text between the
scan position and the marker, appends the entire remainder of the
document unchanged starting at the unclosed marker, and returns
successfully rather than raising an error. -/
theorem convert_unclosed_customquote (fuel : Nat) (tex : List Char) (i p : Nat)
    (hb : findPatFrom tex beginPat i = some p)
    (he : findPatFrom tex endPat (p + 19) = none) :
    convertQuotes tex (fuel + 1) i = .ok (sliceL tex i p ++ tex.drop p) := by
  simp only [convertQuotes]
  split
  · rename_i hb2
    rw [hb] at hb2
    cases hb2
  · rename_i p2 hb2
    rw [hb] at hb2
    cases hb2
    split
    · rfl
    · rename_i q he2
      rw [he] at he2
      cases he2

/-- C10 witness: the theorem applied to a concrete document whose only
customquote environment is unclosed, with the fuel of the top-level
convert entry point. -/
theorem convert_unclosed_customquote_witness :
    convertQuotes (cs "A \\begin\x7bcustomquote\x7d B")
        ((cs "A \\begin\x7bcustomquote\x7d B").length + 1) 0 =
      .ok (sliceL (cs "A \\begin\x7bcustomquote\x7d B") 0 2 ++
        (cs "A \\begin\x7bcustomquote\x7d B").drop 2) :=
  convert_unclosed_customquote _ _ 0 2 (by decide) (by decide)

end ConvertFootnotes

namespace AddLabels

lemma natRepr_lt10 (n : Nat) (h : n < 10) : natRepr n = [Nat.digitChar n] := by
  rw [natRepr, if_pos h]

lemma natRepr_ge10 (n : Nat) (h : ¬ n < 10) :
    natRepr n = natRepr (n / 10) ++ [Nat.digitChar (n % 10)] := by
  rw [natRepr, if_neg h]

lemma natRepr_ne_nil (n : Nat) : natRepr n ≠ [] := by
  by_cases h : n < 10
  · rw [natRepr_lt10 n h]
    simp
  · rw [natRepr_ge10 n h]
    simp

lemma digitChar_injOn : ∀ a, a < 10 → ∀ b, b < 10 →
    Nat.digitChar a = Nat.digitChar b → a = b := by decide

lemma natRepr_inj : ∀ a b, natRepr a = natRepr b → a = b := by
  intro a
  induction a using Nat.strong_induction_on with
  | _ a ih =>
    intro b h
    by_cases ha : a < 10
    · by_cases hb : b < 10
      · rw [natRepr_lt10 a ha, natRepr_lt10 b hb] at h
        simp at h
        exact digitChar_injOn a ha b hb h
      · rw [natRepr_lt10 a ha, natRepr_ge10 b hb] at h
        have hlen := congrArg List.length h
        simp at hlen
        have hne := natRepr_ne_nil (b / 10)
        exact absurd hlen hne
    · by_cases hb : b < 10
      · rw [natRepr_ge10 a ha, natRepr_lt10 b hb] at h
        have hlen := congrArg List.length h
        simp at hlen
        have hne := natRepr_ne_nil (a / 10)
        exact absurd hlen hne
      · rw [natRepr_ge10 a ha, natRepr_ge10 b hb] at h
        have hlen := congrArg List.length h
        simp at hlen
        obtain ⟨h1, h2⟩ := List.append_inj h (by simpa using hlen)
        have hd : a / 10 = b / 10 :=
          ih (a / 10) (Nat.div_lt_self (by omega) (by omega)) (b / 10) h1
        simp at h2
        have hm : a % 10 = b % 10 :=
          digitChar_injOn (a % 10) (Nat.mod_lt _ (by omega)) (b % 10)
            (Nat.mod_lt _ (by omega)) h2
        omega

lemma labelCand_inj (base : List Char) : ∀ a b,
    labelCand base a = labelCand base b → a = b := by
  intro a b h
  unfold labelCand at h
  have h2 := List.append_cancel_left h
  simp at h2
  exact natRepr_inj a b h2

lemma exists_fresh_in_window (base : List Char) (used : List (List Char)) (i f : Nat)
    (hf : used.length < f) : ∃ j, i ≤ j ∧ j < i + f ∧ labelCand base j ∉ used := by
  by_contra hcon
  push_neg at hcon
  have hsub : (Finset.range f).image (fun k => labelCand base (i + k)) ⊆ used.toFinset := by
    intro x hx
    simp only [Finset.mem_image, Finset.mem_range] at hx
    obtain ⟨k, hk, rfl⟩ := hx
    rw [List.mem_toFinset]
    exact hcon (i + k) (by omega) (by omega)
  have hinj : Function.Injective (fun k => labelCand base (i + k)) := by
    intro x y hxy
    have := labelCand_inj base (i + x) (i + y) hxy
    omega
  have hcard : ((Finset.range f).image (fun k => labelCand base (i + k))).card = f := by
    rw [Finset.card_image_of_injective _ hinj, Finset.card_range]
  have hle := Finset.card_le_card hsub
  have hle2 := List.toFinset_card_le used
  omega

lemma findFreeIdx_free (base : List Char) (used : List (List Char)) :
    ∀ f i, (∃ j, i ≤ j ∧ j < i + f ∧ labelCand base j ∉ used) →
      labelCand base (findFreeIdx base used f i) ∉ used := by
  intro f
  induction f with
  | zero =>
    intro i h
    obtain ⟨j, h1, h2, _⟩ := h
    omega
  | succ f ih =>
    intro i h
    simp only [findFreeIdx]
    by_cases hc : labelCand base i ∈ used
    · rw [if_pos hc]
      apply ih
      obtain ⟨j, h1, h2, h3⟩ := h
      refine ⟨j, ?_, by omega, h3⟩
      by_cases hij : j = i
      · subst hij
        exact absurd hc h3
      · omega
    · rw [if_neg hc]
      exact hc

lemma unique_label_spec (base : List Char) (used : List (List Char)) :
    (unique_label base used).1 ∉ used ∧
    (unique_label base used).2 = (unique_label base used).1 :: used := by
  unfold unique_label
  by_cases hm : base ∈ used
  · rw [if_pos hm]
    refine ⟨?_, rfl⟩
    exact findFreeIdx_free base used (used.length + 1) 2
      (exists_fresh_in_window base used 2 (used.length + 1) (by omega))
  · rw [if_neg hm]
    exact ⟨hm, rfl⟩

/-- C7: every label returned by unique_label is absent from the shared
used-label set at the moment it is generated, the returned label is
added to the set, and two successive generations from the same base
against the shared set (as happens when two documents carry a heading
with the same title and the set has been populated before any document
is mutated) always return two distinct labels. -/
theorem unique_label_fresh_and_distinct (base : List Char) (used : List (List Char)) :
    (unique_label base used).1 ∉ used ∧
    (unique_label base used).2 = (unique_label base used).1 :: used ∧
    (unique_label base (unique_label base used).2).1 ∉ (unique_label base used).2 ∧
    (unique_label base (unique_label base used).2).1 ≠ (unique_label base used).1 := by
  obtain ⟨h1, h2⟩ := unique_label_spec base used
  obtain ⟨h3, _⟩ := unique_label_spec base (unique_label base used).2
  refine ⟨h1, h2, h3, ?_⟩
  intro heq
  rw [h2] at h3 heq
  rw [heq] at h3
  exact h3 (List.mem_cons_self _ _)

end AddLabels

namespace AddLabels

lemma findHeadingAux_bounds : ∀ (t : List Char) (abs q e : Nat) (w title : List Char),
    findHeadingAux t abs = some (q, w, title, e) → abs ≤ q ∧ q ≤ e := by
  intro t
  induction t with
  | nil =>
    intro abs q e w title h
    simp [findHeadingAux] at h
  | cons c t ih =>
    intro abs q e w title h
    simp only [findHeadingAux] at h
    split at h
    · rename_i w2 title2 len heq
      cases h
      omega
    · have := ih (abs + 1) q e w title h
      omega

lemma findHeadingFrom_bounds (text : List Char) (p q e : Nat) (w title : List Char)
    (h : findHeadingFrom text p = some (q, w, title, e)) : p ≤ q ∧ q ≤ e := by
  unfold findHeadingFrom at h
  exact findHeadingAux_bounds (text.drop p) p q e w title h

lemma drop_split_at (text : List Char) (a b : Nat) (hab : a ≤ b) :
    text.drop a = sliceL text a b ++ text.drop b := by
  unfold sliceL
  have h1 := List.drop_take_append_drop text a (b - a)
  rw [show a + (b - a) = b from by omega] at h1
  exact h1.symm

lemma processLoop_sublist (text : List Char) :
    ∀ fuel scanPos last used, last ≤ scanPos →
      List.Sublist (text.drop last) (processLoop text fuel scanPos last used).1 := by
  intro fuel
  induction fuel with
  | zero =>
    intro scanPos last used h
    simp only [processLoop]
    exact List.Sublist.refl _
  | succ fuel ih =>
    intro scanPos last used hls
    simp only [processLoop]
    split
    · exact List.Sublist.refl _
    · rename_i q w title e hfind
      have hb := findHeadingFrom_bounds text scanPos q e w title hfind
      split
      · exact ih e last used (by omega)
      · rw [drop_split_at text last e (by omega)]
        have hrec := ih e e
          (unique_label (prefixFor w ++ '-' :: slugify title) used).2 le_rfl
        exact List.Sublist.append (List.Sublist.refl _)
          (hrec.trans (List.sublist_append_right _ _))

lemma allLabeled_spec (text : List Char) (hall : allHeadingsLabeled text = true) :
    ∀ q r, findHeadingFrom text q = some r →
      find_existing_label_ahead text r.2.2.2 ≠ none := by
  intro q r hfind
  by_cases hq : q ≤ text.length
  · have h2 := (List.all_eq_true.mp hall) q (by simp [List.mem_range]; omega)
    rw [hfind] at h2
    simp only [Option.isSome] at h2
    intro hnone
    rw [hnone] at h2
    simp at h2
  · exfalso
    have hnil : text.drop q = [] := List.drop_eq_nil_of_le (by omega)
    unfold findHeadingFrom at hfind
    rw [hnil] at hfind
    simp [findHeadingAux] at hfind

lemma processLoop_all_labeled (text : List Char)
    (hall : ∀ q r, findHeadingFrom text q = some r →
      find_existing_label_ahead text r.2.2.2 ≠ none) :
    ∀ fuel scanPos last used, processLoop text fuel scanPos last used =
      (text.drop last, 0, used) := by
  intro fuel
  induction fuel with
  | zero =>
    intro scanPos last used
    simp only [processLoop]
  | succ fuel ih =>
    intro scanPos last used
    simp only [processLoop]
    split
    · rfl
    · rename_i q w title e hfind
      split
      · exact ih e last used
      · rename_i hnone
        exact absurd hnone (hall scanPos (q, w, title, e) hfind)

/-- C9: label injection is insertion-only and skips labelled headings.
The first conjunct shows that the input text is a sublist of the output
of process_text, so every character of the input appears unchanged and
in the same order in the output, the output being the input with label
strings inserted after heading matches.  The second conjunct shows that
a heading already followed, after whitespace and comments, by a label
macro receives no insertion and consumes no identifier: the loop moves
on with the emitted text, the insertion count and the used-label set
untouched.  The third conjunct shows that a text all of whose heading
matches are already labelled is returned entirely unchanged with an
insertion count of zero and an unchanged used-label set. -/
theorem process_text_insertion_only (text : List Char) (used : List (List Char)) :
    List.Sublist text (process_text text used).1 ∧
    (∀ fuel scanPos last used2 q w title e,
      findHeadingFrom text scanPos = some (q, w, title, e) →
      find_existing_label_ahead text e ≠ none →
      processLoop text (fuel + 1) scanPos last used2 = processLoop text fuel e last used2) ∧
    (allHeadingsLabeled text = true → process_text text used = (text, 0, used)) := by
  refine ⟨?_, ?_, ?_⟩
  · have h := processLoop_sublist text (text.length + 1) 0 0 used le_rfl
    rw [List.drop_zero] at h
    exact h
  · intro fuel scanPos last used2 q w title e hfind hne
    simp only [processLoop]
    split
    · rename_i heq
      rw [hfind] at heq
      cases heq
    · rename_i q2 w2 title2 e2 heq
      rw [hfind] at heq
      cases heq
      split
      · rfl
      · rename_i hnone
        exact absurd hnone hne
  · intro hall
    unfold process_text
    rw [processLoop_all_labeled text (allLabeled_spec text hall) (text.length + 1) 0 0 used]
    rw [List.drop_zero]

/-- C9 witness: the theorem applied to a concrete document whose only
heading is already labelled, with every hypothesis discharged by
computation. -/
theorem process_text_insertion_only_witness :
    processLoop (cs "\\section\x7bIntro\x7d \\label\x7bsec-intro\x7d rest") 1 0 0 [] =
      processLoop (cs "\\section\x7bIntro\x7d \\label\x7bsec-intro\x7d rest") 0 15 0 [] ∧
    allHeadingsLabeled (cs "\\section\x7bIntro\x7d \\label\x7bsec-intro\x7d rest") = true ∧
    process_text (cs "\\section\x7bIntro\x7d \\label\x7bsec-intro\x7d rest") [] =
      (cs "\\section\x7bIntro\x7d \\label\x7bsec-intro\x7d rest", 0, []) :=
  ⟨(process_text_insertion_only _ []).2.1 0 0 0 [] 0 (cs "section") (cs "Intro") 15
      (by decide) (by decide),
   by decide,
   (process_text_insertion_only _ []).2.2 (by decide)⟩

end AddLabels
